import Mathlib

/-!
Shallow embedding of the version-inference engine of `ser-drephs/semver`
(`src/semantic.rs` and `src/history.rs`).  Rust strings are modelled as
`List Char`; the `regex`/`semver` crate operations the code relies on are
embedded by their documented semantics.  Fallible operations (`?`, `unwrap`)
are modelled with `Option`/`Except`; an `unwrap` failure (a Rust panic) is
`none` / `RunError.panicked`.
-/

/-- Substring test: Rust `str::contains(needle)`.  True iff `needle` occurs
contiguously inside the haystack (the empty needle always matches). -/
def containsSub (needle : List Char) : List Char → Bool
  | [] => needle.isEmpty
  | c :: rest => needle.isPrefixOf (c :: rest) || containsSub needle rest

/-- The literal `"!:"` searched for by `Builder::semantic_major`. -/
def bangColonChars : List Char := ['!', ':']

/-- The literal `"feat"`. -/
def featChars : List Char := ['f', 'e', 'a', 't']

/-- The literal `"fix"`. -/
def fixChars : List Char := ['f', 'i', 'x']

/-- Helper for the regex fragment `.*:` (with `.` not matching a newline):
true iff a `':'` occurs in the list before any `'\n'`. -/
def colonBeforeNewline : List Char → Bool
  | [] => false
  | c :: rest =>
    if c = ':' then true
    else if c = '\n' then false
    else colonBeforeNewline rest

/-- `Builder::semantic_major` (semantic.rs line 42-46): the raw message
contains the substring `"!:"`. -/
def semantic_major (message : List Char) : Bool :=
  containsSub bangColonChars message

/-- `Builder::semantic_minor` (semantic.rs line 48-53): the message matches the
regex `^feat.*:` — it starts with `feat` and a `':'` follows on the same line
(`^` is anchored at the start of the haystack and `.` does not match `'\n'`). -/
def semantic_minor (message : List Char) : Bool :=
  featChars.isPrefixOf message && colonBeforeNewline (message.drop 4)

/-- `Builder::semantic_patch` (semantic.rs line 55-60): the message matches the
regex `^fix.*:`. -/
def semantic_patch (message : List Char) : Bool :=
  fixChars.isPrefixOf message && colonBeforeNewline (message.drop 3)

/-- `semver::Version` (semver crate 1.x): numeric components are `u64`, the
prerelease / build-metadata identifiers are kept as their raw text. -/
structure Version where
  major : Nat
  minor : Nat
  patch : Nat
  pre : List Char
  build : List Char
deriving DecidableEq

/-- `Semantic` (semantic.rs line 7-14).  The field name `prerelase` keeps the
source's spelling. -/
structure Semantic where
  major : Bool
  minor : Bool
  patch : Bool
  prerelase : Bool
  version : Version
deriving DecidableEq

/-- `Semantic::default` (semantic.rs line 16-26): all flags false, version
`0.0.0`. -/
def semanticDefault : Semantic :=
  ⟨false, false, false, false, ⟨0, 0, 0, [], []⟩⟩

/-- `Builder::message_contains_semantic_information` (semantic.rs line 62-76):
first-match-wins if/else chain major → minor → patch, each branch setting
(never clearing) its flag. -/
def message_contains_semantic_information (s : Semantic) (message : List Char) :
    Semantic :=
  if semantic_major message then { s with major := true }
  else if semantic_minor message then { s with minor := true }
  else if semantic_patch message then { s with patch := true }
  else s

/-- The literal `"main"`. -/
def mainChars : List Char := ['m', 'a', 'i', 'n']

/-- The literal `"master"`. -/
def masterChars : List Char := ['m', 'a', 's', 't', 'e', 'r']

/-- `Builder::is_prerelease` (semantic.rs line 78-85); `main_release_branch`
is the disjunction of the two substring tests. -/
def is_prerelease (s : Semantic) (branchname : List Char) : Semantic :=
  if !(containsSub mainChars branchname || containsSub masterChars branchname)
      || branchname.isEmpty then
    { s with prerelase := true }
  else s

/-- `Builder::has_major_release` (semantic.rs line 87-89). -/
def has_major_release (s : Semantic) : Bool :=
  s.major

/-- `Builder::analyze_commit` (semantic.rs line 91-102): a commit whose raw
message is unavailable (`message_raw()` returns `None`) is only logged. -/
def analyze_commit (s : Semantic) (message : Option (List Char)) : Semantic :=
  match message with
  | some m => message_contains_semantic_information s m
  | none => s

/-- Character class `[A-Za-z\-\.]` of the prerelease regex in
`Builder::calculate_version` (semantic.rs line 118). -/
def classA (c : Char) : Bool :=
  c.isAlpha || decide (c = '-') || decide (c = '.')

/-- Numeric value of a digit string (used for Rust `str::parse`). -/
def digitsToNat (l : List Char) : Nat :=
  l.foldl (fun a c => a * 10 + (c.toNat - 48)) 0

/-- The regex `([A-Za-z\-\.]+)(?:([\d]*))` applied via `Regex::captures`:
leftmost match; group 1 is the maximal run of `[A-Za-z\-\.]` characters
starting at the first such character, group 2 the maximal digit run
immediately after it.  `none` iff no `[A-Za-z\-\.]` character occurs. -/
def findCapture : List Char → Option (List Char × List Char)
  | [] => none
  | c :: rest =>
    if classA c then
      some ((c :: rest).takeWhile classA,
            ((c :: rest).dropWhile classA).takeWhile Char.isDigit)
    else findCapture rest

/-- `caps.get(2) ... .parse::<i32>().unwrap_or(0)` (semantic.rs line 122-126):
an empty digit run or an `i32`-overflowing one parses to 0. -/
def parseCounter (digits : List Char) : Nat :=
  if digits.isEmpty then 0
  else if digitsToNat digits ≤ 2147483647 then digitsToNat digits
  else 0

/-- Decimal digit characters, for Rust's `format!` of an integer. -/
def digitChar : Nat → Char
  | 0 => '0'
  | 1 => '1'
  | 2 => '2'
  | 3 => '3'
  | 4 => '4'
  | 5 => '5'
  | 6 => '6'
  | 7 => '7'
  | 8 => '8'
  | _ => '9'

/-- Fuel-driven decimal rendering of a natural number (structural so that the
kernel can evaluate it). -/
def natToCharsAux : Nat → Nat → List Char → List Char
  | 0, _, acc => acc
  | fuel + 1, n, acc =>
    if n < 10 then digitChar n :: acc
    else natToCharsAux fuel (n / 10) (digitChar (n % 10) :: acc)

/-- Decimal rendering of a natural number, e.g. `natToChars 13 = "13"`. -/
def natToChars (n : Nat) : List Char :=
  natToCharsAux (n + 1) n []

/-- `number += 1` on the `i32` counter followed by `format!` (semantic.rs
line 127-128).  At `i32::MAX` the increment wraps (release-profile two's
complement addition), producing `"-2147483648"`. -/
def incCounter (n : Nat) : List Char :=
  if n < 2147483647 then natToChars (n + 1)
  else '-' :: natToChars 2147483648

/-- The literal `"pre.0"`. -/
def preZeroChars : List Char := ['p', 'r', 'e', '.', '0']

/-- The prerelease string built by `Builder::calculate_version` (semantic.rs
line 118-137) and handed to `Prerelease::new`: on a regex capture, group 1
concatenated with the incremented counter; otherwise the fixed `"pre.0"`. -/
def next_prerelease (pre : List Char) : List Char :=
  match findCapture pre with
  | some (text, digits) => text ++ incCounter (parseCounter digits)
  | none => preZeroChars

/-- Identifier characters of the semver grammar: ASCII alphanumerics and
hyphen. -/
def isIdentChar (c : Char) : Bool :=
  c.isAlpha || c.isDigit || decide (c = '-')

/-- Split a character list at every `'.'` (the dots are dropped); the result
always has at least one (possibly empty) segment. -/
def splitDots : List Char → List (List Char)
  | [] => [[]]
  | c :: rest =>
    if c = '.' then [] :: splitDots rest
    else (c :: (splitDots rest).headD []) :: (splitDots rest).tail

/-- Validity of one dot-separated prerelease identifier per the semver crate:
nonempty, only `[0-9A-Za-z-]`, and a purely numeric identifier has no leading
zero. -/
def identOk (seg : List Char) : Bool :=
  !seg.isEmpty && seg.all isIdentChar &&
    !(seg.all Char.isDigit && decide (seg.headD ' ' = '0') &&
      decide (1 < seg.length))

/-- `semver::Prerelease::new` validity (semver crate 1.x): empty, or every
dot-separated identifier is valid. -/
def isValidPrerelease (l : List Char) : Bool :=
  l.isEmpty || (splitDots l).all identOk

/-- `2^64`, the modulus of Rust `u64` arithmetic. -/
def u64Mod : Nat := 18446744073709551616

/-- The `(major, minor, patch)` locals of `Builder::calculate_version`
(semantic.rs line 105-115): initialized to 0 and assigned by the
major/minor/patch if-chain, with `u64` wrapping increments. -/
def bumpTriple (s : Semantic) : Nat × Nat × Nat :=
  if s.major then ((s.version.major + 1) % u64Mod, 0, 0)
  else if s.minor then (s.version.major, (s.version.minor + 1) % u64Mod, 0)
  else if s.patch then (s.version.major, s.version.minor, (s.version.patch + 1) % u64Mod)
  else (0, 0, 0)

/-- `Builder::calculate_version` (semantic.rs line 104-147).  The numeric
triple is `bumpTriple`; when the `prerelase` flag is set, the next prerelease
label is built and fed to `Prerelease::new(..).unwrap()` — `none` models the
panic of that `unwrap` on an invalid label.  Build metadata is always
cleared. -/
def calculate_version (s : Semantic) : Option Semantic :=
  if s.prerelase then
    if isValidPrerelease (next_prerelease s.version.pre) then
      some { s with version := ⟨(bumpTriple s).1, (bumpTriple s).2.1, (bumpTriple s).2.2,
                                next_prerelease s.version.pre, []⟩ }
    else none
  else
    some { s with version := ⟨(bumpTriple s).1, (bumpTriple s).2.1, (bumpTriple s).2.2,
                              [], []⟩ }

/-- Errors observable from `HistoryAnalyser::run` in this embedding:
`semverParse` is `SemVerError::SemVerError` raised by `Version::parse`;
`panicked` models a Rust panic (a failed `unwrap`). -/
inductive RunError where
  | semverParse
  | panicked
deriving DecidableEq

/-- One numeric component of `semver::Version::parse`: a nonempty maximal
digit run, no leading zero, value within `u64`. -/
def parseNumPart (l : List Char) : Option (Nat × List Char) :=
  let digits := l.takeWhile Char.isDigit
  let rest := l.dropWhile Char.isDigit
  if digits.isEmpty then none
  else if decide (1 < digits.length) && decide (digits.headD ' ' = '0') then none
  else if digitsToNat digits < u64Mod then some (digitsToNat digits, rest)
  else none

/-- Consume a literal `'.'`. -/
def expectDot : List Char → Option (List Char)
  | '.' :: rest => some rest
  | _ => none

/-- Character usable inside the prerelease / build portion of a version
string: identifier characters and the `'.'` separator. -/
def isPreChar (c : Char) : Bool :=
  isIdentChar c || decide (c = '.')

/-- The prerelease portion after `'-'` in `Version::parse`: a nonempty run of
identifier/dot characters forming valid prerelease identifiers. -/
def parsePreSection (l : List Char) : Option (List Char × List Char) :=
  let label := l.takeWhile isPreChar
  let rest := l.dropWhile isPreChar
  if !label.isEmpty && (splitDots label).all identOk then some (label, rest)
  else none

/-- The build-metadata portion after `'+'` in `Version::parse`: nonempty
dot-separated identifiers (leading zeros allowed). -/
def parseBuildSection (l : List Char) : Option (List Char × List Char) :=
  let label := l.takeWhile isPreChar
  let rest := l.dropWhile isPreChar
  if !label.isEmpty &&
      (splitDots label).all (fun seg => !seg.isEmpty && seg.all isIdentChar) then
    some (label, rest)
  else none

/-- `semver::Version::parse` (semver crate 1.x):
`MAJOR.MINOR.PATCH[-PRERELEASE][+BUILD]`, nothing before or after. -/
def parseVersionChars (l : List Char) : Option Version := do
  let (major, r1) ← parseNumPart l
  let r2 ← expectDot r1
  let (minor, r3) ← parseNumPart r2
  let r4 ← expectDot r3
  let (patch, r5) ← parseNumPart r4
  let (pre, r6) ← match r5 with
    | '-' :: rest => parsePreSection rest
    | other => some (([] : List Char), other)
  let (build, r7) ← match r6 with
    | '+' :: rest => parseBuildSection rest
    | other => some (([] : List Char), other)
  if r7.isEmpty then some ⟨major, minor, patch, pre, build⟩ else none

/-- `Builder::previous_version` (semantic.rs line 149-153): parse the version
string and store it; on a parse failure the builder state is returned
untouched together with the error (`?` returns before the assignment). -/
def previous_version (s : Semantic) (version : List Char) :
    Semantic × Option RunError :=
  match parseVersionChars version with
  | some ver => ({ s with version := ver }, none)
  | none => (s, some RunError.semverParse)

/-- The commit loop of `HistoryAnalyser::run` (history.rs line 147-156):
analyze each commit in order, breaking as soon as `has_major_release`. -/
def walkCommits (s : Semantic) : List (Option (List Char)) → Semantic
  | [] => s
  | c :: rest =>
    let s' := analyze_commit s c
    if has_major_release s' then s' else walkCommits s' rest

/-- The commits actually visited by the loop of `HistoryAnalyser::run`
(history.rs line 147-156), in order. -/
def walkVisited (s : Semantic) : List (Option (List Char)) → List (Option (List Char))
  | [] => []
  | c :: rest =>
    let s' := analyze_commit s c
    if has_major_release s' then [c] else c :: walkVisited s' rest

/-- `HistoryAnalyser::run` (history.rs line 116-161) over an abstract history:
`version_identifier` is the version hint of the `AnalyserPoint`, `branch` the
head's short name, `commits` the raw messages the revwalk yields in order.
Repository access itself is the external collaborator and not modelled; the
builder pipeline — previous_version (twice, as in the source), is_prerelease,
the short-circuiting walk, calculate_version — is embedded as written. -/
def run (version_identifier : Option (List Char)) (branch : List Char)
    (commits : List (Option (List Char))) : Except RunError Semantic :=
  let b0 := semanticDefault
  let r1 := match version_identifier with
    | some v => previous_version b0 v
    | none => (b0, none)
  match r1.2 with
  | some e => Except.error e
  | none =>
    let b1 := is_prerelease r1.1 branch
    let r2 := match version_identifier with
      | some v => previous_version b1 v
      | none => (b1, none)
    match r2.2 with
    | some e => Except.error e
    | none =>
      let b2 := walkCommits r2.1 commits
      match calculate_version b2 with
      | some s => Except.ok s
      | none => Except.error RunError.panicked

/-- The four possible outcomes of classifying one commit message. -/
inductive BumpCategory where
  | major
  | minor
  | patch
  | nothing
deriving DecidableEq

/-- The category assigned to a message by the if/else chain of
`message_contains_semantic_information`. -/
def classify (m : List Char) : BumpCategory :=
  if semantic_major m then BumpCategory.major
  else if semantic_minor m then BumpCategory.minor
  else if semantic_patch m then BumpCategory.patch
  else BumpCategory.nothing

/-- Everything except a newline character. -/
def notNL (c : Char) : Bool := decide (c ≠ '\n')

/-- The header line of a commit message: everything before the first `'\n'`. -/
def firstLine (m : List Char) : List Char :=
  m.takeWhile notNL

/-- The remainder of the message from the first `'\n'` on. -/
def restLines (m : List Char) : List Char :=
  m.dropWhile notNL

/-- A commit that the walk classifies as major. -/
def commitIsMajor (c : Option (List Char)) : Bool :=
  match c with
  | some m => semantic_major m
  | none => false

/-! ### Concrete inputs used by witnesses and counterexamples -/

/-- The string `"v1.2.3"` (the tag name used by tests/history.rs). -/
def v123Chars : List Char := ['v', '1', '.', '2', '.', '3']

/-- The string `"1.2.3"`. -/
def plain123Chars : List Char := ['1', '.', '2', '.', '3']

/-- The commit message `"fix: feature"`. -/
def fixFeatureMsg : List Char :=
  ['f', 'i', 'x', ':', ' ', 'f', 'e', 'a', 't', 'u', 'r', 'e']

/-- The commit message `"feat: impl"`. -/
def featImplMsg : List Char := ['f', 'e', 'a', 't', ':', ' ', 'i', 'm', 'p', 'l']

/-- The commit message `"chore: init"`. -/
def choreMsg : List Char := ['c', 'h', 'o', 'r', 'e', ':', ' ', 'i', 'n', 'i', 't']

/-- The commit message `"feat: x"`. -/
def featColonMsg : List Char := ['f', 'e', 'a', 't', ':', ' ', 'x']

/-- The two-line commit message `"fix: a\nrefactor!: b"`: a patch header with
a `"!:"` occurrence in the body. -/
def mixedMsg : List Char :=
  ['f', 'i', 'x', ':', ' ', 'a', '\n',
   'r', 'e', 'f', 'a', 'c', 't', 'o', 'r', '!', ':', ' ', 'b']

/-! ### C1 — classifier assigns one category, first match wins -/

/-- Claim C1: one classification call assigns exactly one of
major/minor/patch/none, evaluated first-match-wins in the order
major → minor → patch: the resulting flags are the old ones OR-ed with the
(mutually exclusive) outcome of the chain, the other fields are untouched,
and at most one of the three flags is newly set. -/
theorem claim1_classifier_first_match (s : Semantic) (m : List Char) :
    (message_contains_semantic_information s m).major = (s.major || semantic_major m) ∧
    (message_contains_semantic_information s m).minor
      = (s.minor || (!semantic_major m && semantic_minor m)) ∧
    (message_contains_semantic_information s m).patch
      = (s.patch || (!semantic_major m && !semantic_minor m && semantic_patch m)) ∧
    (message_contains_semantic_information s m).prerelase = s.prerelase ∧
    (message_contains_semantic_information s m).version = s.version ∧
    ((message_contains_semantic_information s m).major = true ∧ s.major = false →
      (message_contains_semantic_information s m).minor = s.minor ∧
      (message_contains_semantic_information s m).patch = s.patch) ∧
    ((message_contains_semantic_information s m).minor = true ∧ s.minor = false →
      (message_contains_semantic_information s m).major = s.major ∧
      (message_contains_semantic_information s m).patch = s.patch) ∧
    ((message_contains_semantic_information s m).patch = true ∧ s.patch = false →
      (message_contains_semantic_information s m).major = s.major ∧
      (message_contains_semantic_information s m).minor = s.minor) := by
  rcases Bool.eq_false_or_eq_true (semantic_major m) with h1 | h1 <;>
    rcases Bool.eq_false_or_eq_true (semantic_minor m) with h2 | h2 <;>
      rcases Bool.eq_false_or_eq_true (semantic_patch m) with h3 | h3 <;>
        simp [message_contains_semantic_information, h1, h2, h3]

/-- Claim C1 witness: classifying `"feat: x"` from the default state newly
sets only the minor flag. -/
theorem claim1_witness :
    (message_contains_semantic_information semanticDefault featColonMsg).major
      = semanticDefault.major ∧
    (message_contains_semantic_information semanticDefault featColonMsg).patch
      = semanticDefault.patch :=
  (claim1_classifier_first_match semanticDefault featColonMsg).2.2.2.2.2.2.1
    ⟨by decide, by decide⟩

/-! ### C2 — the numeric triple of calculate_version -/

/-- Claim C2 counterexample: with the previous major component at `u64::MAX`
and the major flag set, the code wraps the increment to 0, so the new major
component is not `prev.major + 1` as claimed. -/
theorem claim2_counterexample :
    (calculate_version
        ⟨true, false, false, false, ⟨18446744073709551615, 2, 5, [], []⟩⟩).map
      (fun t => t.version.major) = some 0 ∧
    (0 : Nat) ≠ 18446744073709551615 + 1 := by
  constructor
  · rfl
  · omega

/-- Claim C2 (amended: the increments are `u64` wrapping additions, which
coincide with `+ 1` whenever the incremented component is below `u64::MAX`):
`calculate_version` produces the numeric triple by strict hierarchical
precedence — major bumps and resets minor/patch, else minor bumps and resets
patch, else patch bumps. -/
theorem claim2_bump_triple (s s' : Semantic)
    (h : calculate_version s = some s') :
    (s.major = true →
      (s'.version.major, s'.version.minor, s'.version.patch)
        = ((s.version.major + 1) % u64Mod, 0, 0)) ∧
    (s.major = false → s.minor = true →
      (s'.version.major, s'.version.minor, s'.version.patch)
        = (s.version.major, (s.version.minor + 1) % u64Mod, 0)) ∧
    (s.major = false → s.minor = false → s.patch = true →
      (s'.version.major, s'.version.minor, s'.version.patch)
        = (s.version.major, s.version.minor, (s.version.patch + 1) % u64Mod)) := by
  have htriple : (s'.version.major, s'.version.minor, s'.version.patch) = bumpTriple s := by
    unfold calculate_version at h
    split at h
    · split at h
      · rw [Option.some.injEq] at h
        subst h
        rfl
      · exact absurd h (by simp)
    · rw [Option.some.injEq] at h
      subst h
      rfl
  refine ⟨?_, ?_, ?_⟩
  · intro hM
    rw [htriple]
    simp [bumpTriple, hM]
  · intro hM hm
    rw [htriple]
    simp [bumpTriple, hM, hm]
  · intro hM hm hp
    rw [htriple]
    simp [bumpTriple, hM, hm, hp]

/-- Claim C2 witness: previous version `1.2.3` with only the minor flag set
yields the triple `(1, 3, 0)`. -/
theorem claim2_witness :
    ((⟨false, true, false, false, ⟨1, 2, 3, [], []⟩⟩ : Semantic).major = false) ∧
    (((⟨1, 3, 0, [], []⟩ : Version).major, (⟨1, 3, 0, [], []⟩ : Version).minor,
        (⟨1, 3, 0, [], []⟩ : Version).patch)
      = ((1 : Nat), ((2 : Nat) + 1) % u64Mod, (0 : Nat))) :=
  ⟨rfl,
    (claim2_bump_triple ⟨false, true, false, false, ⟨1, 2, 3, [], []⟩⟩
        ⟨false, true, false, false, ⟨1, 3, 0, [], []⟩⟩ rfl).2.1 rfl rfl⟩

/-! ### C3 — no signal collapses to 0.0.0 -/

/-- Claim C3: if none of the major/minor/patch flags is set,
`calculate_version` emits the triple `(0, 0, 0)` regardless of the previous
version. -/
theorem claim3_no_signal_zeroes (s s' : Semantic)
    (h : calculate_version s = some s')
    (hM : s.major = false) (hm : s.minor = false) (hp : s.patch = false) :
    s'.version.major = 0 ∧ s'.version.minor = 0 ∧ s'.version.patch = 0 := by
  have htriple : (s'.version.major, s'.version.minor, s'.version.patch) = bumpTriple s := by
    unfold calculate_version at h
    split at h
    · split at h
      · rw [Option.some.injEq] at h
        subst h
        rfl
      · exact absurd h (by simp)
    · rw [Option.some.injEq] at h
      subst h
      rfl
  rw [bumpTriple, hM, hm, hp] at htriple
  simp only [if_neg, Bool.false_eq_true, not_false_iff, Prod.mk.injEq] at htriple
  exact ⟨htriple.1, htriple.2.1, htriple.2.2⟩

/-- Claim C3 witness: previous version `9.8.7` with no flags collapses to
`0.0.0`. -/
theorem claim3_witness :
    (calculate_version ⟨false, false, false, false, ⟨9, 8, 7, [], []⟩⟩
        = some ⟨false, false, false, false, ⟨0, 0, 0, [], []⟩⟩) ∧
    ((⟨false, false, false, false, ⟨0, 0, 0, [], []⟩⟩ : Semantic).version.major = 0 ∧
      (⟨false, false, false, false, ⟨0, 0, 0, [], []⟩⟩ : Semantic).version.minor = 0 ∧
      (⟨false, false, false, false, ⟨0, 0, 0, [], []⟩⟩ : Semantic).version.patch = 0) :=
  ⟨rfl,
    claim3_no_signal_zeroes ⟨false, false, false, false, ⟨9, 8, 7, [], []⟩⟩
      ⟨false, false, false, false, ⟨0, 0, 0, [], []⟩⟩ rfl rfl rfl rfl⟩

/-! ### C5 — the prerelease branch policy -/

/-- Claim C5: `is_prerelease` sets the `prerelase` flag to true iff the branch
name contains neither `"main"` nor `"master"` (the flag is never cleared), and
the empty name yields true. -/
theorem claim5_is_prerelease (s : Semantic) (branchname : List Char) :
    (is_prerelease s branchname).prerelase
      = (s.prerelase ||
          (!containsSub mainChars branchname && !containsSub masterChars branchname)) ∧
    (is_prerelease s []).prerelase = true := by
  constructor
  · cases branchname with
    | nil => simp [is_prerelease, containsSub, mainChars, masterChars]
    | cons c t =>
      rcases Bool.eq_false_or_eq_true (containsSub mainChars (c :: t)) with h1 | h1 <;>
        rcases Bool.eq_false_or_eq_true (containsSub masterChars (c :: t)) with h2 | h2 <;>
          simp [is_prerelease, h1, h2]
  · simp [is_prerelease, containsSub, mainChars, masterChars]

/-! ### C8 — the end-to-end tagged-walk scenario -/

/-- Claim C8 (code bug): a walk whose version hint is the tag name `"v1.2.3"`
does not produce `1.3.0` — `semver::Version::parse` rejects the leading `'v'`,
so `HistoryAnalyser::run` returns the parse error before classifying anything,
although the repository's own test
(`tests/history.rs::when_tag_exists_then_semantic_whatever`) asserts that this
scenario succeeds with `"1.3.0"`.  With the hint `"1.2.3"` the very same walk
does produce `1.3.0`, confirming that only the `'v'` prefix breaks the
scenario. -/
theorem claim8_tagged_walk_bug :
    run (some v123Chars) masterChars
        [some fixFeatureMsg, some featImplMsg, some choreMsg]
      = Except.error RunError.semverParse ∧
    run (some plain123Chars) masterChars
        [some fixFeatureMsg, some featImplMsg, some choreMsg]
      = Except.ok ⟨false, true, true, false, ⟨1, 3, 0, [], []⟩⟩ :=
  ⟨rfl, rfl⟩

/-! ### C9 — previous_version error behavior -/

/-- Claim C9: `previous_version` returns a typed error iff the string is not
valid semver syntax; on error the stored version (indeed the whole builder
state) is unchanged; and in `HistoryAnalyser::run` that error is surfaced
before any commit is classified — the result is the parse error no matter
what the commit history contains. -/
theorem claim9_previous_version (s : Semantic) (v : List Char) :
    ((previous_version s v).2 ≠ none ↔ parseVersionChars v = none) ∧
    ((previous_version s v).2 ≠ none → (previous_version s v).1 = s) ∧
    (∀ (branch : List Char) (commits : List (Option (List Char))),
      parseVersionChars v = none →
        run (some v) branch commits = Except.error RunError.semverParse) := by
  refine ⟨?_, ?_, ?_⟩
  · cases h : parseVersionChars v <;> simp [previous_version, h]
  · cases h : parseVersionChars v <;> simp [previous_version, h]
  · intro branch commits hv
    simp [run, previous_version, hv]

/-- Claim C9 witness: the hint `"v1.2.3"` is rejected, leaves the builder
untouched, and fails the walk up front. -/
theorem claim9_witness :
    (previous_version semanticDefault v123Chars).1 = semanticDefault ∧
    run (some v123Chars) [] [some featImplMsg] = Except.error RunError.semverParse :=
  ⟨(claim9_previous_version semanticDefault v123Chars).2.1 (by decide),
    (claim9_previous_version semanticDefault v123Chars).2.2 [] [some featImplMsg]
      (by decide)⟩

/-! ### C4 — counterexample to the stated prerelease-label rule -/

/-- Claim C4 counterexample: the valid prerelease label `"a1b2"` neither
decomposes into a non-digit tag plus trailing digit run (so the claim
prescribes `"pre.0"`), nor does the code produce the trailing-run reading
`"a1b3"`; the code's leftmost-run regex yields `"a2"`. -/
theorem claim4_counterexample :
    next_prerelease ['a', '1', 'b', '2'] = ['a', '2'] ∧
    next_prerelease ['a', '1', 'b', '2'] ≠ preZeroChars ∧
    next_prerelease ['a', '1', 'b', '2'] ≠ ['a', '1', 'b', '3'] := by
  refine ⟨rfl, by decide, by decide⟩

/-! ### C7 — counterexample to "only the header line matters" -/

/-- Claim C7 counterexample: the message `"fix: a\nrefactor!: b"` classifies
as major (the `"!:"` substring test scans the whole raw message), while its
first line alone classifies as patch. -/
theorem claim7_counterexample :
    classify mixedMsg = BumpCategory.major ∧
    classify (firstLine mixedMsg) = BumpCategory.patch ∧
    classify mixedMsg ≠ classify (firstLine mixedMsg) := by
  refine ⟨rfl, rfl, by decide⟩

/-! ### C10 — counterexample to panic freedom -/

/-- Claim C10 counterexample: `"1.0"` is a valid semver prerelease label, but
`calculate_version` with the prerelease flag set builds the string `".1"`
from it, which `Prerelease::new` rejects — the `unwrap` panics (modelled as
`none`). -/
theorem claim10_counterexample :
    isValidPrerelease ['1', '.', '0'] = true ∧
    next_prerelease ['1', '.', '0'] = ['.', '1'] ∧
    calculate_version ⟨false, false, false, true, ⟨1, 0, 0, ['1', '.', '0'], []⟩⟩
      = none := by
  refine ⟨by decide, rfl, rfl⟩

/-! ### C6 — the major short-circuit of the history walk -/

/-- `analyze_commit` ORs the major-classification of the commit into the
major flag. -/
theorem analyze_commit_major (s : Semantic) (c : Option (List Char)) :
    (analyze_commit s c).major = (s.major || commitIsMajor c) := by
  cases c with
  | none => simp [analyze_commit, commitIsMajor]
  | some m =>
    rcases Bool.eq_false_or_eq_true (semantic_major m) with h1 | h1 <;>
      rcases Bool.eq_false_or_eq_true (semantic_minor m) with h2 | h2 <;>
        rcases Bool.eq_false_or_eq_true (semantic_patch m) with h3 | h3 <;>
          simp [analyze_commit, commitIsMajor,
                message_contains_semantic_information, h1, h2, h3]

/-- `analyze_commit` never touches the stored version or the prerelease
flag. -/
theorem analyze_commit_fields (s : Semantic) (c : Option (List Char)) :
    (analyze_commit s c).version = s.version ∧
    (analyze_commit s c).prerelase = s.prerelase := by
  cases c with
  | none => exact ⟨rfl, rfl⟩
  | some m =>
    rcases Bool.eq_false_or_eq_true (semantic_major m) with h1 | h1 <;>
      rcases Bool.eq_false_or_eq_true (semantic_minor m) with h2 | h2 <;>
        rcases Bool.eq_false_or_eq_true (semantic_patch m) with h3 | h3 <;>
          simp [analyze_commit, message_contains_semantic_information, h1, h2, h3]

/-- Classifying a whole commit list preserves the version and prerelease
fields and keeps the major flag once set. -/
theorem foldl_analyze_invariant (cs : List (Option (List Char))) :
    ∀ s : Semantic,
      (cs.foldl analyze_commit s).version = s.version ∧
      (cs.foldl analyze_commit s).prerelase = s.prerelase ∧
      (s.major = true → (cs.foldl analyze_commit s).major = true) := by
  induction cs with
  | nil => exact fun s => ⟨rfl, rfl, fun h => h⟩
  | cons c cs ih =>
    intro s
    have hf := analyze_commit_fields s c
    have hm := analyze_commit_major s c
    have := ih (analyze_commit s c)
    refine ⟨this.1.trans hf.1, this.2.1.trans hf.2, fun h => this.2.2 ?_⟩
    rw [hm, h]
    rfl

/-- Once the major flag is set, `calculate_version` produces the same version
component no matter which minor/patch flags accompany it. -/
theorem calc_version_congr_major (s₁ s₂ : Semantic) (h₁ : s₁.major = true)
    (h₂ : s₂.major = true) (hv : s₁.version = s₂.version)
    (hp : s₁.prerelase = s₂.prerelase) :
    (calculate_version s₁).map (fun t => t.version)
      = (calculate_version s₂).map (fun t => t.version) := by
  obtain ⟨a1, b1, c1, d1, v1⟩ := s₁
  obtain ⟨a2, b2, c2, d2, v2⟩ := s₂
  simp only at h₁ h₂ hv hp
  subst h₁ h₂ hv hp
  rcases Bool.eq_false_or_eq_true
      (isValidPrerelease (next_prerelease v1.pre)) with hval | hval <;>
    cases d1 <;> simp [calculate_version, bumpTriple, hval]

/-- Claim C6: starting from a state without the major flag, the walk visits
commits exactly up to and including the first major-classified commit
(`List.findIdx` returns the list length when there is none, so `take` then
keeps everything), and the version computed from the short-circuited walk
equals the version computed by classifying the entire sequence. -/
theorem claim6_short_circuit (s : Semantic) (cs : List (Option (List Char)))
    (hs : s.major = false) :
    walkVisited s cs = cs.take (cs.findIdx commitIsMajor + 1) ∧
    (calculate_version (walkCommits s cs)).map (fun t => t.version)
      = (calculate_version (cs.foldl analyze_commit s)).map (fun t => t.version) := by
  induction cs generalizing s with
  | nil => exact ⟨rfl, rfl⟩
  | cons c cs ih =>
    have hmaj := analyze_commit_major s c
    rcases Bool.eq_false_or_eq_true (commitIsMajor c) with hc | hc
    case cons.inl =>
      have hs' : (analyze_commit s c).major = true := by
        rw [hmaj, hs, hc]
        rfl
      have hfold := foldl_analyze_invariant cs (analyze_commit s c)
      constructor
      · simp [walkVisited, has_major_release, hs', List.findIdx_cons, hc]
      · have hwalk : walkCommits s (c :: cs) = analyze_commit s c := by
          simp [walkCommits, has_major_release, hs']
        have hfoldl : (c :: cs).foldl analyze_commit s
            = cs.foldl analyze_commit (analyze_commit s c) := rfl
        rw [hwalk, hfoldl]
        exact calc_version_congr_major _ _ hs' (hfold.2.2 hs')
          hfold.1.symm hfold.2.1.symm
    case cons.inr =>
      have hs' : (analyze_commit s c).major = false := by
        rw [hmaj, hs, hc]
        rfl
      have hrec := ih (analyze_commit s c) hs'
      constructor
      · have hvis : walkVisited s (c :: cs) = c :: walkVisited (analyze_commit s c) cs := by
          simp [walkVisited, has_major_release, hs']
        rw [hvis, hrec.1]
        simp [List.findIdx_cons, hc]
      · have hwalk : walkCommits s (c :: cs) = walkCommits (analyze_commit s c) cs := by
          simp [walkCommits, has_major_release, hs']
        rw [hwalk]
        exact hrec.2

/-- A three-commit history whose second commit is major. -/
def demoCommits : List (Option (List Char)) :=
  [some featColonMsg, some mixedMsg, some fixFeatureMsg]

/-- Claim C6 witness: on a concrete three-commit history whose second commit
is major, the walk visits exactly the first two commits and the computed
version agrees with the non-short-circuited classification. -/
theorem claim6_witness :
    walkVisited semanticDefault demoCommits
      = demoCommits.take (demoCommits.findIdx commitIsMajor + 1) ∧
    (calculate_version (walkCommits semanticDefault demoCommits)).map
        (fun t => t.version)
      = (calculate_version (demoCommits.foldl analyze_commit semanticDefault)).map
        (fun t => t.version) :=
  claim6_short_circuit semanticDefault demoCommits rfl

/-! ### C7 — header line versus full raw message -/

/-- `colonBeforeNewline` only inspects the part of the list before the first
newline. -/
theorem colonBeforeNewline_takeWhile (l : List Char) :
    colonBeforeNewline (l.takeWhile notNL) = colonBeforeNewline l := by
  induction l with
  | nil => rfl
  | cons c t ih =>
    by_cases hc : c = ':'
    · subst hc
      rw [List.takeWhile_cons, if_pos (by decide : notNL ':' = true)]
      simp [colonBeforeNewline]
    · by_cases hn : c = '\n'
      · subst hn
        rw [List.takeWhile_cons, if_neg (by decide : ¬notNL '\n' = true)]
        simp [colonBeforeNewline]
      · have hcn : notNL c = true := by simp [notNL, hn]
        rw [List.takeWhile_cons, if_pos hcn]
        simp [colonBeforeNewline, hc, hn, ih]

/-- A needle whose characters all satisfy `p` is a prefix of `l.takeWhile p`
iff it is a prefix of `l`. -/
theorem isPrefixOf_all_takeWhile (p : Char → Bool) :
    ∀ (needle l : List Char), needle.all p = true →
      needle.isPrefixOf (l.takeWhile p) = needle.isPrefixOf l := by
  intro needle
  induction needle with
  | nil => intro l _; simp
  | cons n ns ih =>
    intro l h
    rw [List.all_cons, Bool.and_eq_true] at h
    cases l with
    | nil => rfl
    | cons c t =>
      rw [List.takeWhile_cons]
      by_cases hc : p c = true
      · rw [if_pos hc, List.isPrefixOf_cons₂, List.isPrefixOf_cons₂, ih t h.2]
      · rw [if_neg hc]
        have hnc : (n == c) = false := by
          rcases Bool.eq_false_or_eq_true (n == c) with h' | h'
          · exact absurd (eq_of_beq h' ▸ h.1) hc
          · exact h'
        rw [List.isPrefixOf_cons_nil, List.isPrefixOf_cons₂, hnc]
        rfl

/-- Dropping `k` elements commutes with `takeWhile p` when the first `k`
elements all satisfy `p`. -/
theorem drop_takeWhile_of_take_all (p : Char → Bool) :
    ∀ (k : Nat) (l : List Char), (l.take k).all p = true →
      (l.takeWhile p).drop k = (l.drop k).takeWhile p := by
  intro k
  induction k with
  | zero => intro l _; rfl
  | succ k ih =>
    intro l hl
    cases l with
    | nil => rfl
    | cons c t =>
      rw [List.take_succ_cons, List.all_cons, Bool.and_eq_true] at hl
      rw [List.takeWhile_cons, if_pos hl.1, List.drop_succ_cons,
          List.drop_succ_cons, ih t hl.2]

/-- The `^feat.*:` test only depends on the header line. -/
theorem semantic_minor_firstLine (m : List Char) :
    semantic_minor (firstLine m) = semantic_minor m := by
  rcases Bool.eq_false_or_eq_true (featChars.isPrefixOf m) with hpre | hpre
  · obtain ⟨rest, hrest⟩ := List.isPrefixOf_iff_prefix.mp hpre
    subst hrest
    unfold semantic_minor firstLine
    rw [isPrefixOf_all_takeWhile notNL featChars (featChars ++ rest) (by decide),
        drop_takeWhile_of_take_all notNL 4 (featChars ++ rest) rfl,
        colonBeforeNewline_takeWhile]
  · unfold semantic_minor firstLine
    rw [isPrefixOf_all_takeWhile notNL featChars m (by decide), hpre]
    simp

/-- The `^fix.*:` test only depends on the header line. -/
theorem semantic_patch_firstLine (m : List Char) :
    semantic_patch (firstLine m) = semantic_patch m := by
  rcases Bool.eq_false_or_eq_true (fixChars.isPrefixOf m) with hpre | hpre
  · obtain ⟨rest, hrest⟩ := List.isPrefixOf_iff_prefix.mp hpre
    subst hrest
    unfold semantic_patch firstLine
    rw [isPrefixOf_all_takeWhile notNL fixChars (fixChars ++ rest) (by decide),
        drop_takeWhile_of_take_all notNL 3 (fixChars ++ rest) rfl,
        colonBeforeNewline_takeWhile]
  · unfold semantic_patch firstLine
    rw [isPrefixOf_all_takeWhile notNL fixChars m (by decide), hpre]
    simp

/-- The `"!:"` substring test over the full raw message splits into the test
on the header line and the test on the remainder (the two-character needle
cannot straddle the newline). -/
theorem semantic_major_split (m : List Char) :
    semantic_major m
      = (semantic_major (firstLine m) || semantic_major (restLines m)) := by
  unfold semantic_major firstLine restLines
  induction m with
  | nil => rfl
  | cons c t ih =>
    by_cases hn : c = '\n'
    · subst hn
      rw [List.takeWhile_cons, if_neg (by decide : ¬notNL '\n' = true),
          List.dropWhile_cons, if_neg (by decide : ¬notNL '\n' = true)]
      rfl
    · have hcn : notNL c = true := by simp [notNL, hn]
      rw [List.takeWhile_cons, if_pos hcn, List.dropWhile_cons, if_pos hcn]
      simp only [containsSub]
      rw [ih]
      have hpref : bangColonChars.isPrefixOf (c :: List.takeWhile notNL t)
          = bangColonChars.isPrefixOf (c :: t) := by
        show (('!' : Char) :: [':']).isPrefixOf (c :: List.takeWhile notNL t)
          = (('!' : Char) :: [':']).isPrefixOf (c :: t)
        rw [List.isPrefixOf_cons₂, List.isPrefixOf_cons₂,
            isPrefixOf_all_takeWhile notNL [':'] t (by decide)]
      rw [hpref, Bool.or_assoc]

/-- Claim C7 (amended: the minor and patch regex tests depend only on the
header line unconditionally; the major `"!:"` substring test scans the whole
raw message, so full-message classification coincides with header-line
classification exactly when the header line itself contains `"!:"` or no
`"!:"` occurs beyond the header line). -/
theorem claim7_header_line (m : List Char) :
    semantic_minor (firstLine m) = semantic_minor m ∧
    semantic_patch (firstLine m) = semantic_patch m ∧
    (classify (firstLine m) = classify m ↔
      (semantic_major (firstLine m) = true ∨
        containsSub bangColonChars (restLines m) = false)) := by
  refine ⟨semantic_minor_firstLine m, semantic_patch_firstLine m, ?_, ?_⟩
  · intro hagree
    rcases Bool.eq_false_or_eq_true (semantic_major (firstLine m)) with hfl | hfl
    case inl => exact Or.inl hfl
    case inr =>
      rcases Bool.eq_false_or_eq_true
          (containsSub bangColonChars (restLines m)) with hr | hr
      case inr => exact Or.inr hr
      case inl =>
        exfalso
        have hm : semantic_major m = true := by
          rw [semantic_major_split m, hfl]
          show (false || containsSub bangColonChars (restLines m)) = true
          rw [hr]
          rfl
        have h1 : classify m = BumpCategory.major := by
          unfold classify
          rw [hm]
          rfl
        have h2 : classify (firstLine m) ≠ BumpCategory.major := by
          unfold classify
          rw [hfl]
          simp only [Bool.false_eq_true, if_false]
          split_ifs <;> decide
        rw [h1] at hagree
        exact h2 hagree
  · intro h
    rcases h with hfl | hrest
    · have hm : semantic_major m = true := by
        rw [semantic_major_split m, hfl]
        rfl
      unfold classify
      rw [hfl, hm]
      rfl
    · have hmaj : semantic_major (firstLine m) = semantic_major m := by
        rw [semantic_major_split m]
        show semantic_major (firstLine m)
          = (semantic_major (firstLine m) || containsSub bangColonChars (restLines m))
        rw [hrest, Bool.or_false]
      unfold classify
      rw [hmaj, semantic_minor_firstLine, semantic_patch_firstLine]

/-- The two-line commit message `"feat: x\nbody"`, whose body has no
`"!:"`. -/
def twoLineMsg : List Char :=
  ['f', 'e', 'a', 't', ':', ' ', 'x', '\n', 'b', 'o', 'd', 'y']

/-- Claim C7 witness: for `"feat: x\nbody"` the header-line classification
agrees with the full-message classification. -/
theorem claim7_witness :
    classify (firstLine twoLineMsg) = classify twoLineMsg :=
  (claim7_header_line twoLineMsg).2.2.mpr (Or.inr (by decide))

/-! ### C4 — the prerelease label computation -/

/-- A decimal digit is outside the regex class `[A-Za-z\-\.]`. -/
theorem isDigit_not_classA (c : Char) (h : c.isDigit = true) : classA c = false := by
  rw [Char.isDigit, Bool.and_eq_true] at h
  obtain ⟨h1, h2⟩ := h
  have h1' : (48 : UInt32) ≤ c.val := of_decide_eq_true h1
  have h2' : c.val ≤ (57 : UInt32) := of_decide_eq_true h2
  rw [classA]
  have hA : c.isAlpha = false := by
    rcases Bool.eq_false_or_eq_true c.isAlpha with hA | hA
    · rw [Char.isAlpha, Bool.or_eq_true] at hA
      rcases hA with hU | hL
      · rw [Char.isUpper, Bool.and_eq_true] at hU
        have : (65 : UInt32) ≤ c.val := of_decide_eq_true hU.1
        have : (65 : UInt32) ≤ 57 := UInt32.le_trans this h2'
        exact absurd this (by decide)
      · rw [Char.isLower, Bool.and_eq_true] at hL
        have : (97 : UInt32) ≤ c.val := of_decide_eq_true hL.1
        have : (97 : UInt32) ≤ 57 := UInt32.le_trans this h2'
        exact absurd this (by decide)
    · exact hA
  have hm : decide (c = '-') = false := by
    rcases Bool.eq_false_or_eq_true (decide (c = '-')) with hm | hm
    · have := of_decide_eq_true hm
      subst this
      exact absurd h1' (by decide)
    · exact hm
  have hd : decide (c = '.') = false := by
    rcases Bool.eq_false_or_eq_true (decide (c = '.')) with hd | hd
    · have := of_decide_eq_true hd
      subst this
      exact absurd h1' (by decide)
    · exact hd
  rw [hA, hm, hd]
  rfl

/-- A pure digit run contributes nothing to the class-A `takeWhile`. -/
theorem takeWhile_classA_digits (digits : List Char)
    (hd : digits.all Char.isDigit = true) :
    digits.takeWhile classA = [] := by
  cases digits with
  | nil => rfl
  | cons d ds =>
    rw [List.all_cons, Bool.and_eq_true] at hd
    rw [List.takeWhile_cons, if_neg]
    rw [isDigit_not_classA d hd.1]
    simp

/-- A pure digit run is untouched by the class-A `dropWhile`. -/
theorem dropWhile_classA_digits (digits : List Char)
    (hd : digits.all Char.isDigit = true) :
    digits.dropWhile classA = digits := by
  cases digits with
  | nil => rfl
  | cons d ds =>
    rw [List.all_cons, Bool.and_eq_true] at hd
    rw [List.dropWhile_cons, if_neg]
    rw [isDigit_not_classA d hd.1]
    simp

/-- `takeWhile isDigit` keeps a pure digit run whole. -/
theorem takeWhile_isDigit_self (digits : List Char)
    (hd : digits.all Char.isDigit = true) :
    digits.takeWhile Char.isDigit = digits := by
  induction digits with
  | nil => rfl
  | cons d ds ih =>
    rw [List.all_cons, Bool.and_eq_true] at hd
    rw [List.takeWhile_cons, if_pos hd.1, ih hd.2]

/-- Without any `[A-Za-z\-\.]` character the prerelease regex does not
match. -/
theorem findCapture_eq_none (l : List Char) (h : l.find? classA = none) :
    findCapture l = none := by
  induction l with
  | nil => rfl
  | cons c t ih =>
    have hc : classA c = false := by
      rcases Bool.eq_false_or_eq_true (classA c) with hc | hc
      · rw [List.find?_cons_of_pos _ hc] at h
        exact absurd h (by simp)
      · exact hc
    rw [List.find?_cons_of_neg _ (by rw [hc]; simp)] at h
    rw [findCapture, if_neg (by rw [hc]; simp)]
    exact ih h

/-- Claim C4 (amended: the tag must be the label's leading maximal run of
`[A-Za-z\-\.]` characters — labels with digits before or after that run,
such as `"a1b2"`, follow the code's leftmost-match rule instead — and the
counter must stay below `i32::MAX`, where the increment would overflow): for
a label that is a nonempty class-A run followed by a digit run, the new label
is the run concatenated with counter + 1 (absent counter read as 0, so
`"pre.2" ↦ "pre.3"`, `"alpha2" ↦ "alpha3"`, `"pre" ↦ "pre1"`); a label with
no class-A character at all (in particular the empty label) yields the fixed
`"pre.0"`. -/
theorem claim4_prerelease_label :
    (∀ text digits : List Char, text ≠ [] → text.all classA = true →
      digits.all Char.isDigit = true → digitsToNat digits < 2147483647 →
      next_prerelease (text ++ digits) = text ++ natToChars (digitsToNat digits + 1)) ∧
    (∀ pre : List Char, pre.find? classA = none →
      next_prerelease pre = preZeroChars) := by
  constructor
  · intro text digits ht hta hd hlt
    obtain ⟨c, text', rfl⟩ : ∃ c t', text = c :: t' := by
      cases text with
      | nil => exact absurd rfl ht
      | cons c t' => exact ⟨c, t', rfl⟩
    rw [List.all_cons, Bool.and_eq_true] at hta
    have hall : ∀ a ∈ c :: text', classA a = true := by
      intro a ha
      rcases List.mem_cons.mp ha with rfl | ha
      · exact hta.1
      · exact List.all_eq_true.mp hta.2 a ha
    rw [next_prerelease]
    rw [List.cons_append, findCapture, if_pos hta.1, ← List.cons_append]
    rw [List.takeWhile_append_of_pos hall, takeWhile_classA_digits digits hd,
        List.append_nil]
    rw [List.dropWhile_append_of_pos hall, dropWhile_classA_digits digits hd,
        takeWhile_isDigit_self digits hd]
    have hpc : parseCounter digits = digitsToNat digits := by
      cases digits with
      | nil => rfl
      | cons d ds =>
        rw [parseCounter, if_neg (by simp), if_pos (Nat.le_of_lt hlt)]
    show (c :: text') ++ incCounter (parseCounter digits)
      = c :: text' ++ natToChars (digitsToNat digits + 1)
    rw [hpc, incCounter, if_pos hlt]
  · intro pre hf
    rw [next_prerelease, findCapture_eq_none pre hf]

/-- Claim C4 witness: `"pre.2"` steps to `"pre.3"` and the empty label
initializes to `"pre.0"`. -/
theorem claim4_witness :
    next_prerelease (['p', 'r', 'e', '.'] ++ ['2'])
      = ['p', 'r', 'e', '.'] ++ natToChars (digitsToNat ['2'] + 1) ∧
    next_prerelease [] = preZeroChars :=
  ⟨claim4_prerelease_label.1 ['p', 'r', 'e', '.'] ['2'] (by decide) (by decide) (by decide)
      (by decide),
    claim4_prerelease_label.2 [] (by decide)⟩

/-! ### C10 — panic freedom of the prerelease unwrap -/

/-- One decimal digit is a digit character, is not a dot, and only `0` renders
as `'0'`. -/
theorem digitChar_spec (k : Nat) (hk : k < 10) :
    (digitChar k).isDigit = true ∧ (digitChar k ≠ '.') ∧
      (digitChar k = '0' → k = 0) := by
  interval_cases k <;> exact ⟨by decide, by decide, by decide⟩

/-- `headD` of an append looks only at the first (nonempty) part. -/
theorem headD_append_of_ne_nil (ds : List Char) (x : Char) (tail' : List Char)
    (h : ds ≠ []) : (ds ++ tail').headD x = ds.headD x := by
  cases ds with
  | nil => exact absurd rfl h
  | cons a b => rfl

/-- With sufficient fuel, `natToCharsAux` prepends a nonempty digit string to
the accumulator, with a leading `'0'` only for zero itself. -/
theorem natToCharsAux_spec :
    ∀ (fuel n : Nat) (acc : List Char), n < fuel →
      ∃ ds : List Char, natToCharsAux fuel n acc = ds ++ acc ∧ ds ≠ [] ∧
        ds.all Char.isDigit = true ∧ (ds.headD ' ' = '0' → n = 0) := by
  intro fuel
  induction fuel with
  | zero => intro n acc h; omega
  | succ f ih =>
    intro n acc h
    rw [natToCharsAux]
    by_cases hn : n < 10
    · rw [if_pos hn]
      obtain ⟨hd1, _, hd3⟩ := digitChar_spec n hn
      exact ⟨[digitChar n], rfl, by simp, by simp [hd1], fun hh => hd3 hh⟩
    · rw [if_neg hn]
      have h10 : n / 10 < f := by
        have h1 : n / 10 < n := Nat.div_lt_self (by omega) (by omega)
        omega
      obtain ⟨ds, hds, hne, hall, hhead⟩ := ih (n / 10) (digitChar (n % 10) :: acc) h10
      have hmod : n % 10 < 10 := Nat.mod_lt _ (by omega)
      obtain ⟨hm1, _, _⟩ := digitChar_spec (n % 10) hmod
      refine ⟨ds ++ [digitChar (n % 10)], ?_, by simp [hne], ?_, ?_⟩
      · rw [hds, List.append_assoc, List.singleton_append]
      · rw [List.all_append]
        simp [hall, hm1]
      · rw [headD_append_of_ne_nil ds ' ' [digitChar (n % 10)] hne]
        intro hh
        have := hhead hh
        omega
    
/-- `natToChars` produces a nonempty digit string with no leading zero for
positive numbers. -/
theorem natToChars_spec (n : Nat) :
    natToChars n ≠ [] ∧ (natToChars n).all Char.isDigit = true ∧
      ((natToChars n).headD ' ' = '0' → n = 0) := by
  obtain ⟨ds, hds, hne, hall, hhead⟩ := natToCharsAux_spec (n + 1) n [] (by omega)
  rw [natToChars, hds, List.append_nil]
  exact ⟨hne, hall, hhead⟩

/-- Digits are semver identifier characters. -/
theorem isDigit_isIdentChar (c : Char) (h : c.isDigit = true) :
    isIdentChar c = true := by
  rw [isIdentChar, h]
  simp

/-- Digits are not the dot separator. -/
theorem isDigit_ne_dot (c : Char) (h : c.isDigit = true) : c ≠ '.' := by
  intro hc
  subst hc
  exact absurd h (by decide)

/-- A digit string consists of identifier characters. -/
theorem all_isDigit_isIdentChar (l : List Char) (h : l.all Char.isDigit = true) :
    l.all isIdentChar = true := by
  rw [List.all_eq_true] at h ⊢
  exact fun c hc => isDigit_isIdentChar c (h c hc)

/-- A valid identifier consists of identifier characters. -/
theorem identOk_chars (seg : List Char) (h : identOk seg = true) :
    seg.all isIdentChar = true := by
  rw [identOk, Bool.and_eq_true, Bool.and_eq_true] at h
  exact h.1.2

/-- Prepending a non-digit identifier character to identifier characters
yields a valid identifier (it cannot be purely numeric). -/
theorem identOk_cons_nondigit (c : Char) (seg : List Char)
    (hc : isIdentChar c = true) (hcd : c.isDigit = false)
    (hs : seg.all isIdentChar = true) : identOk (c :: seg) = true := by
  rw [identOk]
  simp [hc, hcd, hs]

/-- The rendered incremented counter is itself a valid dot-free identifier —
in both the ordinary and the `i32`-wrapping branch. -/
theorem num_spec (digits : List Char) :
    identOk (incCounter (parseCounter digits)) = true ∧
      ∀ ch ∈ incCounter (parseCounter digits), ch ≠ '.' := by
  rw [incCounter]
  by_cases h : parseCounter digits < 2147483647
  · rw [if_pos h]
    obtain ⟨hne, hall, hhead⟩ := natToChars_spec (parseCounter digits + 1)
    constructor
    · have hid := all_isDigit_isIdentChar _ hall
      have hh : ¬(natToChars (parseCounter digits + 1)).headD ' ' = '0' := by
        intro hh
        have := hhead hh
        omega
      rw [identOk]
      rw [List.headD_eq_head?_getD] at hh
      simp [hid, hne, hh]
    · intro ch hch
      have := List.all_eq_true.mp hall ch hch
      exact isDigit_ne_dot ch this
  · rw [if_neg h]
    obtain ⟨hne, hall, _⟩ := natToChars_spec 2147483648
    constructor
    · exact identOk_cons_nondigit '-' _ (by decide) (by decide)
        (all_isDigit_isIdentChar _ hall)
    · intro ch hch
      rcases List.mem_cons.mp hch with rfl | hch
      · decide
      · exact isDigit_ne_dot ch (List.all_eq_true.mp hall ch hch)

/-- `splitDots` always yields at least one segment. -/
theorem splitDots_ne_nil (l : List Char) : splitDots l ≠ [] := by
  cases l with
  | nil => simp [splitDots]
  | cons c t =>
    rw [splitDots]
    split <;> simp

/-- A dot-free list is one single segment. -/
theorem splitDots_dotfree (l : List Char) (h : ∀ c ∈ l, c ≠ '.') :
    splitDots l = [l] := by
  induction l with
  | nil => rfl
  | cons c t ih =>
    have hc : c ≠ '.' := h c (List.mem_cons_self c t)
    have ht : ∀ d ∈ t, d ≠ '.' := fun d hd => h d (List.mem_cons_of_mem c hd)
    rw [splitDots, if_neg hc, ih ht]
    rfl

/-- Two consecutive dots produce an empty segment after the first one. -/
theorem doubledot_empty_seg (l : List Char)
    (h : containsSub ['.', '.'] l = true) :
    ∃ seg ∈ (splitDots l).tail, seg = [] := by
  induction l with
  | nil => exact absurd h (by decide)
  | cons c t ih =>
    rw [containsSub, Bool.or_eq_true] at h
    by_cases hc : c = '.'
    · subst hc
      have hsplit : splitDots ('.' :: t) = [] :: splitDots t := by
        rw [splitDots, if_pos rfl]
      rcases h with hpre | hcon
      · -- t starts with '.'
        cases t with
        | nil => exact absurd hpre (by decide)
        | cons d t2 =>
          simp only [List.isPrefixOf_cons₂, List.isPrefixOf_nil_left,
            Bool.and_eq_true, beq_iff_eq, and_true, true_and] at hpre
          subst hpre
          have hsplit2 : splitDots ('.' :: t2) = [] :: splitDots t2 := by
            rw [splitDots, if_pos rfl]
          refine ⟨[], ?_, rfl⟩
          rw [hsplit]
          show [] ∈ splitDots ('.' :: t2)
          rw [hsplit2]
          exact List.mem_cons_self _ _
      · obtain ⟨seg, hmem, hseg⟩ := ih hcon
        refine ⟨seg, ?_, hseg⟩
        rw [hsplit]
        exact List.mem_of_mem_tail hmem
    · rcases h with hpre2 | hcon
      · rw [List.isPrefixOf_cons₂, Bool.and_eq_true] at hpre2
        have : ('.' : Char) = c := eq_of_beq hpre2.1
        exact absurd this.symm hc
      · obtain ⟨seg, hmem, hseg⟩ := ih hcon
        refine ⟨seg, ?_, hseg⟩
        rw [splitDots, if_neg hc]
        show seg ∈ (splitDots t).tail
        exact hmem

/-- A label whose segments are all valid identifiers has no `".."`. -/
theorem valid_no_doubledot (l : List Char)
    (hv : (splitDots l).all identOk = true) :
    containsSub ['.', '.'] l = false := by
  rcases Bool.eq_false_or_eq_true (containsSub ['.', '.'] l) with hdd | hdd
  · obtain ⟨seg, hmem, rfl⟩ := doubledot_empty_seg l hdd
    have := List.all_eq_true.mp hv [] (List.mem_of_mem_tail hmem)
    exact absurd this (by decide)
  · exact hdd

/-- No character of the regex class `[A-Za-z\-\.]` is a digit. -/
theorem classA_not_isDigit (c : Char) (h : classA c = true) :
    c.isDigit = false := by
  rw [classA, Bool.or_eq_true, Bool.or_eq_true] at h
  rcases Bool.eq_false_or_eq_true c.isDigit with hd | hd
  case inr => exact hd
  case inl =>
    exfalso
    rw [Char.isDigit, Bool.and_eq_true] at hd
    have h2' : c.val ≤ (57 : UInt32) := of_decide_eq_true hd.2
    have h1' : (48 : UInt32) ≤ c.val := of_decide_eq_true hd.1
    rcases h with (hA | hm) | hdot
    · rw [Char.isAlpha, Bool.or_eq_true] at hA
      rcases hA with hU | hL
      · rw [Char.isUpper, Bool.and_eq_true] at hU
        have : (65 : UInt32) ≤ c.val := of_decide_eq_true hU.1
        have : (65 : UInt32) ≤ 57 := UInt32.le_trans this h2'
        exact absurd this (by decide)
      · rw [Char.isLower, Bool.and_eq_true] at hL
        have : (97 : UInt32) ≤ c.val := of_decide_eq_true hL.1
        have : (97 : UInt32) ≤ 57 := UInt32.le_trans this h2'
        exact absurd this (by decide)
    · have := of_decide_eq_true hm
      subst this
      exact absurd h1' (by decide)
    · have := of_decide_eq_true hdot
      subst this
      exact absurd h1' (by decide)

/-- A non-dot character of the regex class is a semver identifier
character. -/
theorem classA_nondot_isIdentChar (c : Char) (h : classA c = true)
    (hd : c ≠ '.') : isIdentChar c = true := by
  rw [classA, Bool.or_eq_true, Bool.or_eq_true] at h
  rw [isIdentChar]
  rcases h with (hA | hm) | hdot
  · rw [hA]
    simp
  · rw [hm]
    simp
  · exact absurd (of_decide_eq_true hdot) hd

/-- Invariant for appending the rendered counter to the captured tag: over a
class-A tag with no `".."`, every segment after the first is a valid
identifier, and the first is valid as well unless the tag starts with a
dot (in which case it is empty). -/
theorem splitDots_append_inv (num : List Char) (hnum : identOk num = true)
    (hnumdot : ∀ ch ∈ num, ch ≠ '.') :
    ∀ t : List Char, t.all classA = true →
      containsSub ['.', '.'] t = false →
      ((splitDots (t ++ num)).tail.all identOk = true ∧
        (t.head? = some '.' → (splitDots (t ++ num)).headD [] = []) ∧
        (t.head? ≠ some '.' → identOk ((splitDots (t ++ num)).headD []) = true)) := by
  intro t
  induction t with
  | nil =>
    intro _ _
    rw [List.nil_append, splitDots_dotfree num hnumdot]
    exact ⟨rfl, fun h => by simp at h, fun _ => hnum⟩
  | cons c t2 ih =>
    intro hta hdd
    rw [List.all_cons, Bool.and_eq_true] at hta
    rw [containsSub, Bool.or_eq_false_iff] at hdd
    have ih2 := ih hta.2 hdd.2
    by_cases hc : c = '.'
    · subst hc
      have hsplit : splitDots (('.' :: t2) ++ num) = [] :: splitDots (t2 ++ num) := by
        rw [List.cons_append, splitDots, if_pos rfl]
      have ht2h : t2.head? ≠ some '.' := by
        intro hh
        cases t2 with
        | nil => simp at hh
        | cons d t3 =>
          rw [List.head?_cons, Option.some.injEq] at hh
          subst hh
          have hT : (['.', '.'].isPrefixOf ('.' :: '.' :: t3)) = true := by
            simp [List.isPrefixOf_cons₂]
          rw [hT] at hdd
          exact absurd hdd.1 (by decide)
      obtain ⟨s0, ss, hs0⟩ : ∃ s0 ss, splitDots (t2 ++ num) = s0 :: ss := by
        cases hsd : splitDots (t2 ++ num) with
        | nil => exact absurd hsd (splitDots_ne_nil _)
        | cons a b => exact ⟨a, b, rfl⟩
      refine ⟨?_, fun _ => ?_, fun h => absurd rfl h⟩
      · rw [hsplit]
        show (splitDots (t2 ++ num)).all identOk = true
        rw [hs0, List.all_cons, Bool.and_eq_true]
        constructor
        · have hok := ih2.2.2 ht2h
          rw [hs0] at hok
          exact hok
        · have htl := ih2.1
          rw [hs0] at htl
          exact htl
      · rw [hsplit]
        rfl
    · have hsplit : splitDots ((c :: t2) ++ num)
          = (c :: (splitDots (t2 ++ num)).headD []) :: (splitDots (t2 ++ num)).tail := by
        rw [List.cons_append, splitDots, if_neg hc]
      refine ⟨?_, fun hh => ?_, fun _ => ?_⟩
      · rw [hsplit]
        exact ih2.1
      · rw [List.head?_cons, Option.some.injEq] at hh
        exact absurd hh hc
      · rw [hsplit]
        show identOk (c :: (splitDots (t2 ++ num)).headD []) = true
        have hcid : isIdentChar c = true := classA_nondot_isIdentChar c hta.1 hc
        have hcnd : c.isDigit = false := classA_not_isDigit c hta.1
        by_cases ht2 : t2.head? = some '.'
        · rw [ih2.2.1 ht2]
          exact identOk_cons_nondigit c [] hcid hcnd (by simp)
        · exact identOk_cons_nondigit c _ hcid hcnd
            (identOk_chars _ (ih2.2.2 ht2))

/-- `containsSub` is the boolean infix test. -/
theorem containsSub_spec (n : List Char) :
    ∀ l : List Char, containsSub n l = true ↔ n <:+: l := by
  intro l
  induction l with
  | nil =>
    rw [containsSub]
    simp [List.isEmpty_iff]
  | cons c t ih =>
    rw [containsSub, Bool.or_eq_true, ih, List.infix_cons_iff,
        List.isPrefixOf_iff_prefix]

/-- When the prerelease regex matches: the captured tag is a nonempty class-A
run that is an infix of the label and starts at the label's first class-A
character, and the captured counter is a digit run. -/
theorem findCapture_some_facts (l : List Char) :
    ∀ text digits : List Char, findCapture l = some (text, digits) →
      ((∃ c t', text = c :: t') ∧ text.all classA = true ∧
        digits.all Char.isDigit = true ∧ text <:+: l ∧
        l.find? classA = text.head?) := by
  induction l with
  | nil => intro text digits h; exact absurd h (by simp [findCapture])
  | cons c t ih =>
    intro text digits h
    rw [findCapture] at h
    rcases Bool.eq_false_or_eq_true (classA c) with hc | hc
    · rw [if_pos hc, Option.some.injEq, Prod.mk.injEq] at h
      obtain ⟨htext, hdig⟩ := h
      have htw : (c :: t).takeWhile classA = c :: t.takeWhile classA := by
        rw [List.takeWhile_cons, if_pos hc]
      refine ⟨?_, ?_, ?_, ?_, ?_⟩
      · rw [← htext, htw]
        exact ⟨c, t.takeWhile classA, rfl⟩
      · rw [← htext]
        exact List.all_takeWhile
      · rw [← hdig]
        exact List.all_takeWhile
      · rw [← htext]
        exact (List.takeWhile_prefix classA).isInfix
      · rw [← htext, htw, List.head?_cons, List.find?_cons_of_pos _ hc]
    · rw [if_neg (by rw [hc]; simp)] at h
      obtain ⟨hshape, hta, hdig, hinf, hfind⟩ := ih text digits h
      refine ⟨hshape, hta, hdig, List.infix_cons hinf, ?_⟩
      rw [List.find?_cons_of_neg _ (by rw [hc]; simp), hfind]

/-- The constructed next prerelease string is a valid semver prerelease
whenever the previous label is valid and its first class-A character is not a
dot. -/
theorem next_prerelease_valid (pre : List Char)
    (hv : isValidPrerelease pre = true)
    (hfd : pre.find? classA ≠ some '.') :
    isValidPrerelease (next_prerelease pre) = true := by
  rw [next_prerelease]
  cases hcap : findCapture pre with
  | none => decide
  | some td =>
    obtain ⟨text, digits⟩ := td
    obtain ⟨⟨c, t', htext⟩, hta, hdig, hinf, hfind⟩ :=
      findCapture_some_facts pre text digits hcap
    have hsegs : (splitDots pre).all identOk = true := by
      rw [isValidPrerelease, Bool.or_eq_true] at hv
      rcases hv with hemp | hsegs
      · rw [List.isEmpty_iff] at hemp
        subst hemp
        exact absurd hcap (by simp [findCapture])
      · exact hsegs
    have hnodd : containsSub ['.', '.'] pre = false := valid_no_doubledot pre hsegs
    have hnoddt : containsSub ['.', '.'] text = false := by
      rcases Bool.eq_false_or_eq_true (containsSub ['.', '.'] text) with hc2 | hc2
      case inr => exact hc2
      case inl =>
        rw [containsSub_spec] at hc2
        have : ('.' :: ['.']) <:+: pre := hc2.trans hinf
        rw [← containsSub_spec] at this
        rw [this] at hnodd
        exact absurd hnodd (by decide)
    have hhead : text.head? ≠ some '.' := by
      rw [← hfind]
      exact hfd
    obtain ⟨hnum, hnumdot⟩ := num_spec digits
    have hinv := splitDots_append_inv (incCounter (parseCounter digits)) hnum
      hnumdot text hta hnoddt
    rw [isValidPrerelease, Bool.or_eq_true]
    right
    obtain ⟨s0, ss, hs0⟩ :
        ∃ s0 ss, splitDots (text ++ incCounter (parseCounter digits)) = s0 :: ss := by
      cases hsd : splitDots (text ++ incCounter (parseCounter digits)) with
      | nil => exact absurd hsd (splitDots_ne_nil _)
      | cons a b => exact ⟨a, b, rfl⟩
    rw [hs0, List.all_cons, Bool.and_eq_true]
    constructor
    · have hok := hinv.2.2 hhead
      rw [hs0] at hok
      exact hok
    · have htl := hinv.1
      rw [hs0] at htl
      exact htl

/-- Claim C10 (amended: restricted to valid prerelease labels whose first
character from the class `[A-Za-z\-\.]` is not `'.'` — i.e. labels that do
not begin with a numeric identifier followed by a dot, on which the `unwrap`
does panic, see the counterexample): for every such previous version,
`calculate_version` with the prerelease flag set completes without
panicking. -/
theorem claim10_no_panic (s : Semantic) (hp : s.prerelase = true)
    (hv : isValidPrerelease s.version.pre = true)
    (hfd : s.version.pre.find? classA ≠ some '.') :
    (calculate_version s).isSome = true := by
  rw [calculate_version, if_pos hp, if_pos (next_prerelease_valid s.version.pre hv hfd)]
  rfl

/-- Claim C10 witness: the valid label `"alpha2"` is processed without a
panic. -/
theorem claim10_witness :
    (calculate_version
        ⟨false, false, false, true, ⟨1, 0, 0, ['a', 'l', 'p', 'h', 'a', '2'], []⟩⟩).isSome
      = true :=
  claim10_no_panic _ rfl (by decide) (by decide)
